import Mathlib

/-!
# Verification of the TripleStore RocksDB NIF wrapper

Shallow embedding of `src/native/rocksdb_nif/src/lib.rs`.

Keys and values are opaque byte strings (`List Nat`). The storage engine
(RocksDB) is external to the repository; it is modelled as a sorted
association list per column family, ordered by the engine's default
bytewise-lexicographic comparator, with the point/iterator/snapshot/batch
capabilities the wrapper relies on (and which the repository's own tests at
the bottom of `lib.rs` pin down: `basic_put_get`, `iterator_prefix_bounds`,
`snapshot_isolation`, `write_batch_atomicity`).
-/

namespace TripleStore

/-- Byte strings: keys, values, prefixes, seek targets. -/
abbrev Bytes := List Nat

/-- The engine's default bytewise-lexicographic comparator (strict order):
a proper prefix sorts before its extensions. -/
def ltB : Bytes → Bytes → Bool
  | _, [] => false
  | [], _ :: _ => true
  | a :: x, b :: y => if a < b then true else if a = b then ltB x y else false

/-- Embeds Rust's `key.starts_with(&prefix)`: `starts_with k p` is true iff
`p` is a prefix of `k`. -/
def starts_with : Bytes → Bytes → Bool
  | _, [] => true
  | [], _ :: _ => false
  | a :: x, b :: y => if a = b then starts_with x y else false

theorem ltB_irrefl (x : Bytes) : ltB x x = false := by
  induction x with
  | nil => rfl
  | cons a t ih => simp [ltB, ih]

theorem ltB_trans {x y z : Bytes} (h1 : ltB x y = true) (h2 : ltB y z = true) :
    ltB x z = true := by
  induction x generalizing y z with
  | nil =>
    cases z with
    | nil => cases y <;> simp [ltB] at h1 h2
    | cons c w => rfl
  | cons a t ih =>
    cases y with
    | nil => simp [ltB] at h1
    | cons b u =>
      cases z with
      | nil => simp [ltB] at h2
      | cons c w =>
        simp only [ltB] at h1 h2 ⊢
        split at h1
        · -- a < b
          split at h2
          · -- b < c
            have : a < c := Nat.lt_trans (by assumption) (by assumption)
            simp [this]
          · split at h2
            · -- b = c
              subst_vars
              simp_all
            · exact absurd h2 (by simp)
        · split at h1
          · -- a = b
            subst_vars
            split at h2
            · simp_all
            · split at h2
              · subst_vars
                simp_all [ih h1 h2]
              · exact absurd h2 (by simp)
          · exact absurd h1 (by simp)

theorem ltB_asymm {x y : Bytes} (h : ltB x y = true) : ltB y x = false := by
  by_contra hc
  have h2 : ltB y x = true := by
    cases hyx : ltB y x
    · exact absurd hyx hc
    · rfl
  have := ltB_trans h h2
  rw [ltB_irrefl] at this
  exact absurd this (by simp)

theorem ltB_conn {x y : Bytes} (h : ltB x y = false) (hne : x ≠ y) :
    ltB y x = true := by
  induction x generalizing y with
  | nil =>
    cases y with
    | nil => exact absurd rfl hne
    | cons b u => simp [ltB] at h
  | cons a t ih =>
    cases y with
    | nil => rfl
    | cons b u =>
      simp only [ltB] at h ⊢
      split at h
      · exact absurd h (by simp)
      · split at h
        · -- a = b, ltB t u = false
          subst_vars
          have hne' : t ≠ u := by
            intro he; exact hne (by rw [he])
          simp [ih h hne']
        · -- ¬ a < b, a ≠ b, so b < a
          have hba : b < a := by omega
          simp [hba]

/-- A key is never strictly below its own prefix. -/
theorem starts_with_not_lt {k p : Bytes} (h : starts_with k p = true) :
    ltB k p = false := by
  induction p generalizing k with
  | nil => cases k <;> rfl
  | cons b u ih =>
    cases k with
    | nil => simp [starts_with] at h
    | cons a t =>
      simp only [starts_with] at h
      split at h
      · subst_vars
        simp [ltB, ih h]
      · exact absurd h (by simp)

/-- Keys matching a prefix form a downward-closed block of the keys `≥ p`:
if `k2` matches prefix `p` while `k1 ≥ p` does not match, then `k2 < k1`. -/
theorem starts_with_boundary {p k1 k2 : Bytes}
    (h2 : starts_with k2 p = true) (hge : ltB k1 p = false)
    (h1 : starts_with k1 p = false) : ltB k2 k1 = true := by
  induction p generalizing k1 k2 with
  | nil => simp [starts_with] at h1
  | cons b u ih =>
    cases k1 with
    | nil => simp [ltB] at hge
    | cons a t =>
      cases k2 with
      | nil => simp [starts_with] at h2
      | cons c w =>
        simp only [starts_with] at h1 h2
        simp only [ltB] at hge ⊢
        split at h2
        · -- c = b
          subst_vars
          split at hge
          · exact absurd hge (by simp)
          · split at hge
            · -- a = b (so a = c), recurse
              subst_vars
              split at h1
              · simp [ih h2 hge h1]
              · simp_all
            · -- the head of k1 is strictly above the prefix head
              have hca : c < a := by omega
              simp [hca]
        · exact absurd h2 (by simp)

/-! ## The engine's per-column-family keyspace

One RocksDB column family is modelled as an association list of
key/value pairs kept strictly sorted by the bytewise comparator. -/

/-- One column family's contents: key/value pairs. -/
abbrev KVList := List (Bytes × Bytes)

/-- The list is strictly ascending in key order (the engine's on-disk
order: unique keys, bytewise-lexicographic). -/
def sortedKV : KVList → Bool
  | [] => true
  | [_] => true
  | a :: b :: t => ltB a.1 b.1 && sortedKV (b :: t)

theorem sortedKV_tail {e : Bytes × Bytes} {l : KVList}
    (h : sortedKV (e :: l) = true) : sortedKV l = true := by
  cases l with
  | nil => rfl
  | cons b t => simp only [sortedKV, Bool.and_eq_true] at h; exact h.2

theorem sortedKV_head_lt {e : Bytes × Bytes} {l : KVList}
    (h : sortedKV (e :: l) = true) : ∀ x ∈ l, ltB e.1 x.1 = true := by
  induction l generalizing e with
  | nil => intro x hx; cases hx
  | cons b t ih =>
    intro x hx
    simp only [sortedKV, Bool.and_eq_true] at h
    rw [List.mem_cons] at hx
    rcases hx with hx | hx
    · rw [hx]; exact h.1
    · exact ltB_trans h.1 (ih h.2 x hx)

theorem sortedKV_cons_iff {e : Bytes × Bytes} {l : KVList} :
    sortedKV (e :: l) = true ↔
      (∀ x ∈ l, ltB e.1 x.1 = true) ∧ sortedKV l = true := by
  constructor
  · intro h
    exact ⟨sortedKV_head_lt h, sortedKV_tail h⟩
  · rintro ⟨hall, hl⟩
    cases l with
    | nil => rfl
    | cons b t =>
      simp only [sortedKV, Bool.and_eq_true]
      exact ⟨hall b (by simp), hl⟩

/-- Engine point write: insert or overwrite, keeping the list sorted.
Models `db.put_cf`. -/
def insertKV (k v : Bytes) : KVList → KVList
  | [] => [(k, v)]
  | e :: t =>
    if ltB k e.1 then (k, v) :: e :: t
    else if k = e.1 then (k, v) :: t
    else e :: insertKV k v t

/-- Engine point delete. Models `db.delete_cf` (no-op when absent). -/
def deleteKV (k : Bytes) : KVList → KVList
  | [] => []
  | e :: t => if e.1 = k then t else e :: deleteKV k t

/-- Engine point read. Models `db.get_cf`. -/
def lookupKV (k : Bytes) : KVList → Option Bytes
  | [] => none
  | e :: t => if e.1 = k then some e.2 else lookupKV k t

theorem mem_insertKV {k v : Bytes} {l : KVList} :
    ∀ x ∈ insertKV k v l, x = (k, v) ∨ x ∈ l := by
  induction l with
  | nil =>
    intro x hx
    simp [insertKV] at hx
    simp [hx]
  | cons e t ih =>
    intro x hx
    simp only [insertKV] at hx
    split at hx
    · rw [List.mem_cons] at hx
      rcases hx with hx | hx
      · exact Or.inl hx
      · exact Or.inr hx
    · split at hx
      · rw [List.mem_cons] at hx
        rcases hx with hx | hx
        · exact Or.inl hx
        · exact Or.inr (List.mem_cons_of_mem _ hx)
      · rw [List.mem_cons] at hx
        rcases hx with hx | hx
        · exact Or.inr (by rw [List.mem_cons]; exact Or.inl hx)
        · rcases ih x hx with h | h
          · exact Or.inl h
          · exact Or.inr (List.mem_cons_of_mem _ h)

theorem insertKV_sorted {k v : Bytes} {l : KVList}
    (h : sortedKV l = true) : sortedKV (insertKV k v l) = true := by
  induction l with
  | nil => rfl
  | cons e t ih =>
    simp only [insertKV]
    split
    next hlt =>
      rw [sortedKV_cons_iff]
      refine ⟨?_, h⟩
      intro x hx
      rw [List.mem_cons] at hx
      rcases hx with hx | hx
      · rw [hx]; exact hlt
      · exact ltB_trans hlt (sortedKV_head_lt h x hx)
    next hnlt =>
      split
      next heq =>
        rw [heq, sortedKV_cons_iff]
        exact ⟨fun x hx => sortedKV_head_lt h x hx, sortedKV_tail h⟩
      next hne =>
        rw [sortedKV_cons_iff]
        refine ⟨?_, ih (sortedKV_tail h)⟩
        intro x hx
        rcases mem_insertKV x hx with hx | hx
        · rw [hx]
          exact ltB_conn (by simpa using hnlt) (fun he => hne he)
        · exact sortedKV_head_lt h x hx

theorem mem_deleteKV {k : Bytes} {l : KVList} :
    ∀ x ∈ deleteKV k l, x ∈ l := by
  induction l with
  | nil => intro x hx; cases hx
  | cons e t ih =>
    intro x hx
    simp only [deleteKV] at hx
    split at hx
    · exact List.mem_cons_of_mem _ hx
    · rw [List.mem_cons] at hx
      rcases hx with hx | hx
      · rw [List.mem_cons]; exact Or.inl hx
      · exact List.mem_cons_of_mem _ (ih x hx)

theorem deleteKV_sorted {k : Bytes} {l : KVList}
    (h : sortedKV l = true) : sortedKV (deleteKV k l) = true := by
  induction l with
  | nil => rfl
  | cons e t ih =>
    simp only [deleteKV]
    split
    · exact sortedKV_tail h
    · rw [sortedKV_cons_iff]
      exact ⟨fun x hx => sortedKV_head_lt h x (mem_deleteKV x hx),
        ih (sortedKV_tail h)⟩

theorem lookupKV_insert_self {k v : Bytes} {l : KVList} :
    lookupKV k (insertKV k v l) = some v := by
  induction l with
  | nil => simp [insertKV, lookupKV]
  | cons e t ih =>
    simp only [insertKV]
    split
    · simp [lookupKV]
    · split
      · simp [lookupKV]
      · have : e.1 ≠ k := fun he => by simp_all
        simp [lookupKV, this, ih]

theorem lookupKV_insert_ne {k k' v : Bytes} {l : KVList} (hne : k' ≠ k) :
    lookupKV k' (insertKV k v l) = lookupKV k' l := by
  induction l with
  | nil => simp [insertKV, lookupKV, Ne.symm hne]
  | cons e t ih =>
    simp only [insertKV]
    split
    · simp [lookupKV, Ne.symm hne]
    · split
      next heq =>
        rw [heq]
        simp [lookupKV, heq ▸ Ne.symm hne]
      next hne2 =>
        simp only [lookupKV]
        split <;> simp [ih]

theorem lookupKV_eq_none_of_forall {k : Bytes} {l : KVList}
    (h : ∀ x ∈ l, x.1 ≠ k) : lookupKV k l = none := by
  induction l with
  | nil => rfl
  | cons e t ih =>
    simp only [lookupKV]
    rw [if_neg (h e (by simp))]
    exact ih (fun x hx => h x (by simp [hx]))

theorem lookupKV_delete_self {k : Bytes} {l : KVList}
    (h : sortedKV l = true) : lookupKV k (deleteKV k l) = none := by
  induction l with
  | nil => rfl
  | cons e t ih =>
    simp only [deleteKV]
    split
    · -- deleted the head; a sorted tail cannot contain the key again
      subst_vars
      exact lookupKV_eq_none_of_forall (fun x hx he => by
        have := sortedKV_head_lt h x hx
        rw [he] at this
        rw [ltB_irrefl] at this
        exact absurd this (by simp))
    · simp only [lookupKV]
      rw [if_neg (by assumption)]
      exact ih (sortedKV_tail h)

/-! ## Forward-cursor lemmas

The engine's forward cursor opened with `IteratorMode::From(start, Forward)`
stands at the first key `≥ start`; in the sorted model that is
`dropWhile (· < start)`. The wrapper bounds results by checking
`starts_with` on every returned entry. -/

theorem sorted_ge_propagate {t : Bytes} {a : Bytes × Bytes} {r : KVList}
    (h : sortedKV (a :: r) = true) (hnlt : ltB a.1 t = false) :
    ∀ e ∈ a :: r, ltB e.1 t = false := by
  intro e he
  rw [List.mem_cons] at he
  rcases he with he | he
  · rw [he]; exact hnlt
  · cases hlt : ltB e.1 t
    · rfl
    · have h1 := sortedKV_head_lt h e he
      have := ltB_trans h1 hlt
      rw [hnlt] at this
      exact absurd this (by simp)

/-- On a sorted list the cursor position `dropWhile (· < t)` is exactly
the set of keys `≥ t`. -/
theorem dropWhile_eq_filter_ge {t : Bytes} {l : KVList}
    (h : sortedKV l = true) :
    l.dropWhile (fun x => ltB x.1 t) = l.filter (fun x => !ltB x.1 t) := by
  induction l with
  | nil => rfl
  | cons a r ih =>
    rw [List.dropWhile_cons, List.filter_cons]
    cases hlt : ltB a.1 t
    · simp only [Bool.false_eq_true, if_false, Bool.not_false, if_true]
      congr 1
      symm
      rw [List.filter_eq_self]
      intro e he
      simp [sorted_ge_propagate h hlt e (List.mem_cons_of_mem _ he)]
    · simp only [if_true, Bool.not_true, Bool.false_eq_true, if_false]
      exact ih (sortedKV_tail h)

theorem dropWhile_all_ge {t : Bytes} {l : KVList} (h : sortedKV l = true) :
    ∀ e ∈ l.dropWhile (fun x => ltB x.1 t), ltB e.1 t = false := by
  intro e he
  rw [dropWhile_eq_filter_ge h] at he
  have := List.of_mem_filter he
  simpa using this

/-- On a sorted list whose keys are all `≥ p`, scanning forward until the
first key not matching `p` collects exactly the matching keys. -/
theorem takeWhile_eq_filter_of_ge {p : Bytes} {l : KVList}
    (h : sortedKV l = true) (hge : ∀ e ∈ l, ltB e.1 p = false) :
    l.takeWhile (fun e => starts_with e.1 p)
      = l.filter (fun e => starts_with e.1 p) := by
  induction l with
  | nil => rfl
  | cons a r ih =>
    rw [List.takeWhile_cons, List.filter_cons]
    cases hsw : starts_with a.1 p
    · simp only [Bool.false_eq_true, if_false]
      symm
      rw [List.filter_eq_nil_iff]
      intro e he
      cases hsw2 : starts_with e.1 p
      · simp
      · -- a prefix match after a non-match would violate the sort order
        have hb := starts_with_boundary hsw2 (hge a (by simp)) hsw
        have h1 := sortedKV_head_lt h e he
        have := ltB_asymm h1
        rw [hb] at this
        exact absurd this (by simp)
    · simp only [if_true]
      congr 1
      exact ih (sortedKV_tail h) (fun e he => hge e (List.mem_cons_of_mem _ he))

/-- Main scan lemma: start the cursor at the first key `≥ p`, keep entries
while they match `p`; the result is exactly the prefix-filtered store. -/
theorem scan_eq_filter {p : Bytes} {l : KVList} (h : sortedKV l = true) :
    (l.dropWhile (fun x => ltB x.1 p)).takeWhile (fun e => starts_with e.1 p)
      = l.filter (fun e => starts_with e.1 p) := by
  induction l with
  | nil => rfl
  | cons a r ih =>
    rw [List.dropWhile_cons, List.filter_cons]
    cases hlt : ltB a.1 p
    · simp only [Bool.false_eq_true, if_false]
      have hge := sorted_ge_propagate h hlt
      rw [takeWhile_eq_filter_of_ge h hge, List.filter_cons]
    · have hnsw : starts_with a.1 p = false := by
        cases hsw : starts_with a.1 p
        · rfl
        · rw [starts_with_not_lt hsw] at hlt
          exact absurd hlt (by simp)
      rw [hnsw]
      simp only [if_true, Bool.false_eq_true, if_false]
      exact ih (sortedKV_tail h)

/-- A prefix-filtered sorted list is still sorted (ascending key order). -/
theorem filter_sorted {l : KVList} (h : sortedKV l = true)
    (q : Bytes × Bytes → Bool) : sortedKV (l.filter q) = true := by
  induction l with
  | nil => rfl
  | cons a r ih =>
    rw [List.filter_cons]
    split
    · rw [sortedKV_cons_iff]
      refine ⟨?_, ih (sortedKV_tail h)⟩
      intro x hx
      exact sortedKV_head_lt h x (List.mem_of_mem_filter hx)
    · exact ih (sortedKV_tail h)

/-! ## Column families and the database

`CF_NAMES = ["id2str", "str2id", "spo", "pos", "osp", "derived",
"numeric_range"]`; the closed set is modelled as an inductive type.
The database opened by `open` always contains all seven families
(`create_missing_column_families(true)`). -/

/-- The closed enumeration behind `CF_NAMES`. -/
inductive CFName where
  | id2str | str2id | spo | pos | osp | derived | numeric_range
deriving DecidableEq, Repr

/-- `CF_NAMES`: every column family of the store. -/
def CF_NAMES : List CFName :=
  [.id2str, .str2id, .spo, .pos, .osp, .derived, .numeric_range]

/-- `PREFIX_CFS`: families opened with the fixed 8-byte prefix extractor. -/
def PREFIX_CFS : List CFName := [.spo, .pos, .osp, .numeric_range]

/-- `PREFIX_LENGTH`: 8 bytes (a 64-bit component ID). -/
def PREFIX_LENGTH : Nat := 8

/-- Embeds `cf_atom_to_name`: the chain of atom comparisons in the source,
with Elixir atoms modelled as strings. `none` for anything outside the
seven valid names. -/
def cf_atom_to_name (a : String) : Option CFName :=
  if a = "id2str" then some .id2str
  else if a = "str2id" then some .str2id
  else if a = "spo" then some .spo
  else if a = "pos" then some .pos
  else if a = "osp" then some .osp
  else if a = "derived" then some .derived
  else if a = "numeric_range" then some .numeric_range
  else none

/-- The whole multi-column-family store: one sorted keyspace per family. -/
structure Store where
  id2str : KVList
  str2id : KVList
  spo : KVList
  pos : KVList
  osp : KVList
  derived : KVList
  numeric_range : KVList
deriving DecidableEq, Repr

def emptyStore : Store := ⟨[], [], [], [], [], [], []⟩

def getCF (st : Store) : CFName → KVList
  | .id2str => st.id2str
  | .str2id => st.str2id
  | .spo => st.spo
  | .pos => st.pos
  | .osp => st.osp
  | .derived => st.derived
  | .numeric_range => st.numeric_range

def setCF (st : Store) (n : CFName) (l : KVList) : Store :=
  match n with
  | .id2str => { st with id2str := l }
  | .str2id => { st with str2id := l }
  | .spo => { st with spo := l }
  | .pos => { st with pos := l }
  | .osp => { st with osp := l }
  | .derived => { st with derived := l }
  | .numeric_range => { st with numeric_range := l }

theorem getCF_setCF_self (st : Store) (n : CFName) (l : KVList) :
    getCF (setCF st n l) n = l := by
  cases n <;> rfl

theorem getCF_setCF_ne (st : Store) {n m : CFName} (l : KVList)
    (h : n ≠ m) : getCF (setCF st n l) m = getCF st m := by
  cases n <;> cases m <;> first | rfl | exact absurd rfl h

/-- `SharedDb`: the reference-counted engine instance plus its path. In the
source this is held through `Arc<SharedDb>`; here a value is one such
reference, and the engine data itself never errors in the model. -/
structure SharedDb where
  store : Store
  path : String
deriving DecidableEq, Repr

/-- `cf_handle`: resolving one of the seven names against the open engine.
The database is opened with all of `CF_NAMES`
(`create_missing_column_families`), so resolution always succeeds; the
`Option` mirrors the source's defensive check. -/
def cf_handle (_d : SharedDb) (n : CFName) : Option CFName := some n

/-- The Elixir-visible result terms of the NIFs, one constructor per
distinct term shape the source can build. -/
inductive Reply where
  | ok
  | okVal (v : Bytes)
  | okBool (b : Bool)
  | okEntry (k v : Bytes)
  | okList (l : List (Bytes × Bytes))
  | okPath (p : String)
  | notFound
  | iteratorEnd
  | errAlreadyClosed
  | errInvalidCf (cf : String)
  | errInvalidOp
  | errInvalidOpTag (op : String)
  | errIteratorClosed
  | errSnapshotReleased
deriving DecidableEq, Repr

/-! ## Handle registry: open / close / is_open / get_path

A `DbRef`'s `RwLock<Option<Arc<SharedDb>>>` is modelled as
`Option SharedDb`: `some` while open, `none` after `close`. -/

/-- Embeds `open(path)`: creates the store with all column families.
The engine-failure branch (`{:error, {:open_failed, msg}}`) is not modelled
— the model engine always opens. -/
def openDb (path : String) : Option SharedDb :=
  some { store := emptyStore, path := path }

/-- Embeds `close`: drops the registry's own reference only; reports
`already_closed` on a second call. -/
def close (h : Option SharedDb) : Reply × Option SharedDb :=
  match h with
  | none => (.errAlreadyClosed, none)
  | some _ => (.ok, none)

/-- Embeds `is_open`. -/
def is_open (h : Option SharedDb) : Bool :=
  h.isSome

/-- Embeds `get_path`. -/
def get_path (h : Option SharedDb) : Reply :=
  match h with
  | none => .errAlreadyClosed
  | some d => .okPath d.path

/-! ## Point operations -/

/-- Embeds `get`: column-family validation first, then the open/closed
check, then the engine read. -/
def get (h : Option SharedDb) (cf : String) (k : Bytes) : Reply :=
  match cf_atom_to_name cf with
  | none => .errInvalidCf cf
  | some name =>
    match h with
    | none => .errAlreadyClosed
    | some d =>
      match cf_handle d name with
      | none => .errInvalidCf cf
      | some _ =>
        match lookupKV k (getCF d.store name) with
        | some v => .okVal v
        | none => .notFound

/-- Embeds `put`. Returns the reply together with the handle (whose shared
store reflects the write). -/
def put (h : Option SharedDb) (cf : String) (k v : Bytes) :
    Reply × Option SharedDb :=
  match cf_atom_to_name cf with
  | none => (.errInvalidCf cf, h)
  | some name =>
    match h with
    | none => (.errAlreadyClosed, none)
    | some d =>
      match cf_handle d name with
      | none => (.errInvalidCf cf, some d)
      | some _ =>
        (.ok, some { d with
          store := setCF d.store name (insertKV k v (getCF d.store name)) })

/-- Embeds `delete`. -/
def delete (h : Option SharedDb) (cf : String) (k : Bytes) :
    Reply × Option SharedDb :=
  match cf_atom_to_name cf with
  | none => (.errInvalidCf cf, h)
  | some name =>
    match h with
    | none => (.errAlreadyClosed, none)
    | some d =>
      match cf_handle d name with
      | none => (.errInvalidCf cf, some d)
      | some _ =>
        (.ok, some { d with
          store := setCF d.store name (deleteKV k (getCF d.store name)) })

/-- Embeds `exists` (named `existsKey` because `exists` is a Lean keyword):
a get that discards the value. -/
def existsKey (h : Option SharedDb) (cf : String) (k : Bytes) : Reply :=
  match cf_atom_to_name cf with
  | none => .errInvalidCf cf
  | some name =>
    match h with
    | none => .errAlreadyClosed
    | some d =>
      match cf_handle d name with
      | none => .errInvalidCf cf
      | some _ =>
        match lookupKV k (getCF d.store name) with
        | some _ => .okBool true
        | none => .okBool false

/-- Embeds `flush_wal`: the engine flush is modelled as always
succeeding; only the closed-check is observable. -/
def flush_wal (h : Option SharedDb) (_sync : Bool) : Reply :=
  match h with
  | none => .errAlreadyClosed
  | some _ => .ok

/-- Embeds `set_options`: applies options to all column families; every
`cf_handle` resolution succeeds and the model engine accepts the options,
so only the closed-check is observable. -/
def set_options (h : Option SharedDb) (_options : List (String × String)) :
    Reply :=
  match h with
  | none => .errAlreadyClosed
  | some _ => .ok

/-! ## Batch operations

A batch operation entry arrives as an Elixir tuple of atoms and binaries;
`ETerm` models one tuple element, an `Entry` is the tuple. Decode failures
(`rustler::Error::Term`) raise out of the NIF and are modelled by
`Nif.raised`; they never issue a write. -/

/-- One element of a batch tuple: an atom or a binary. -/
inductive ETerm where
  | atom (a : String)
  | bin (b : Bytes)
deriving DecidableEq, Repr

/-- One batch operation entry (an Elixir tuple). -/
abbrev Entry := List ETerm

/-- A NIF call either raises a `rustler::Error` or returns a term. -/
inductive Nif (α : Type) where
  | raised (msg : String)
  | ret (a : α)
deriving DecidableEq, Repr

def decodeAtom : ETerm → Option String
  | .atom a => some a
  | .bin _ => none

def decodeBin : ETerm → Option Bytes
  | .bin b => some b
  | .atom _ => none

/-- A validated engine batch operation (`WriteBatch::put_cf/delete_cf`). -/
inductive BatchOp where
  | putOp (cf : CFName) (k v : Bytes)
  | delOp (cf : CFName) (k : Bytes)
deriving DecidableEq, Repr

/-- Applying a fully validated batch atomically (`db.write_opt`). -/
def applyBatchOp (st : Store) : BatchOp → Store
  | .putOp name k v => setCF st name (insertKV k v (getCF st name))
  | .delOp name k => setCF st name (deleteKV k (getCF st name))

def applyBatch (st : Store) (ops : List BatchOp) : Store :=
  ops.foldl applyBatchOp st

/-- Parsing one `write_batch` entry, in source order: a 3-tuple
`{cf, key, value}` is a put; a 4-tuple `{:put, cf, key, value}` must carry
the `:put` tag; anything else is a bare `:invalid_operation`. -/
def parseWriteEntry (d : SharedDb) : Entry → Nif (Except Reply BatchOp)
  | [t0, t1, t2] =>
    match decodeAtom t0 with
    | none => .raised "expected atom for cf"
    | some cfa =>
      match decodeBin t1 with
      | none => .raised "expected binary for key"
      | some k =>
        match decodeBin t2 with
        | none => .raised "expected binary for value"
        | some v =>
          match cf_atom_to_name cfa with
          | none => .ret (.error (.errInvalidCf cfa))
          | some name =>
            match cf_handle d name with
            | none => .ret (.error (.errInvalidCf cfa))
            | some _ => .ret (.ok (.putOp name k v))
  | [t0, t1, t2, t3] =>
    match decodeAtom t0 with
    | none => .raised "expected atom for operation"
    | some opa =>
      match decodeAtom t1 with
      | none => .raised "expected atom for cf"
      | some cfa =>
        match decodeBin t2 with
        | none => .raised "expected binary for key"
        | some k =>
          match decodeBin t3 with
          | none => .raised "expected binary for value"
          | some v =>
            if opa ≠ "put" then .ret (.error (.errInvalidOpTag opa))
            else
              match cf_atom_to_name cfa with
              | none => .ret (.error (.errInvalidCf cfa))
              | some name =>
                match cf_handle d name with
                | none => .ret (.error (.errInvalidCf cfa))
                | some _ => .ret (.ok (.putOp name k v))
  | _ => .ret (.error .errInvalidOp)

/-- Parsing one `delete_batch` entry: exactly `{cf, key}`. -/
def parseDeleteEntry (d : SharedDb) : Entry → Nif (Except Reply BatchOp)
  | [t0, t1] =>
    match decodeAtom t0 with
    | none => .raised "expected atom for cf"
    | some cfa =>
      match decodeBin t1 with
      | none => .raised "expected binary for key"
      | some k =>
        match cf_atom_to_name cfa with
        | none => .ret (.error (.errInvalidCf cfa))
        | some name =>
          match cf_handle d name with
          | none => .ret (.error (.errInvalidCf cfa))
          | some _ => .ret (.ok (.delOp name k))
  | _ => .ret (.error .errInvalidOp)

/-- Parsing one `mixed_batch` entry: tagged `{:put, cf, key, value}` or
`{:delete, cf, key}`; an unknown tag reports the offending atom, a wrong
arity under a known tag reports a bare `:invalid_operation`. -/
def parseMixedEntry (d : SharedDb) : Entry → Nif (Except Reply BatchOp)
  | [] => .ret (.error .errInvalidOp)
  | t0 :: rest =>
    match decodeAtom t0 with
    | none => .raised "expected atom for operation"
    | some opa =>
      if opa = "put" then
        match rest with
        | [t1, t2, t3] =>
          match decodeAtom t1 with
          | none => .raised "expected atom for cf"
          | some cfa =>
            match decodeBin t2 with
            | none => .raised "expected binary for key"
            | some k =>
              match decodeBin t3 with
              | none => .raised "expected binary for value"
              | some v =>
                match cf_atom_to_name cfa with
                | none => .ret (.error (.errInvalidCf cfa))
                | some name =>
                  match cf_handle d name with
                  | none => .ret (.error (.errInvalidCf cfa))
                  | some _ => .ret (.ok (.putOp name k v))
        | _ => .ret (.error .errInvalidOp)
      else if opa = "delete" then
        match rest with
        | [t1, t2] =>
          match decodeAtom t1 with
          | none => .raised "expected atom for cf"
          | some cfa =>
            match decodeBin t2 with
            | none => .raised "expected binary for key"
            | some k =>
              match cf_atom_to_name cfa with
              | none => .ret (.error (.errInvalidCf cfa))
              | some name =>
                match cf_handle d name with
                | none => .ret (.error (.errInvalidCf cfa))
                | some _ => .ret (.ok (.delOp name k))
        | _ => .ret (.error .errInvalidOp)
      else .ret (.error (.errInvalidOpTag opa))

/-- The source's parse loop: build up the engine `WriteBatch`, stopping at
the first malformed entry — the batch is only handed to the engine after
every entry validated. -/
def parseEntries (f : Entry → Nif (Except Reply BatchOp)) :
    List Entry → Nif (Except Reply (List BatchOp))
  | [] => .ret (.ok [])
  | e :: rest =>
    match f e with
    | .raised m => .raised m
    | .ret (.error r) => .ret (.error r)
    | .ret (.ok op) =>
      match parseEntries f rest with
      | .raised m => .raised m
      | .ret (.error r) => .ret (.error r)
      | .ret (.ok ops) => .ret (.ok (op :: ops))

/-- Embeds `write_batch`: closed-check, then entry validation, then one
atomic engine write (which the model engine always accepts). -/
def write_batch (h : Option SharedDb) (operations : List Entry)
    (_sync : Bool) : Nif (Reply × Option SharedDb) :=
  match h with
  | none => .ret (.errAlreadyClosed, none)
  | some d =>
    match parseEntries (parseWriteEntry d) operations with
    | .raised m => .raised m
    | .ret (.error r) => .ret (r, some d)
    | .ret (.ok ops) =>
      .ret (.ok, some { d with store := applyBatch d.store ops })

/-- Embeds `delete_batch`. -/
def delete_batch (h : Option SharedDb) (operations : List Entry)
    (_sync : Bool) : Nif (Reply × Option SharedDb) :=
  match h with
  | none => .ret (.errAlreadyClosed, none)
  | some d =>
    match parseEntries (parseDeleteEntry d) operations with
    | .raised m => .raised m
    | .ret (.error r) => .ret (r, some d)
    | .ret (.ok ops) =>
      .ret (.ok, some { d with store := applyBatch d.store ops })

/-- Embeds `mixed_batch`. -/
def mixed_batch (h : Option SharedDb) (operations : List Entry)
    (_sync : Bool) : Nif (Reply × Option SharedDb) :=
  match h with
  | none => .ret (.errAlreadyClosed, none)
  | some d =>
    match parseEntries (parseMixedEntry d) operations with
    | .raised m => .raised m
    | .ret (.error r) => .ret (r, some d)
    | .ret (.ok ops) =>
      .ret (.ok, some { d with store := applyBatch d.store ops })

/-! ## Iterators

`IteratorRef` holds the engine cursor behind `Mutex<Option<...>>` plus its
own `Arc<SharedDb>`, the prefix bytes and the column-family name. The
engine cursor over a sorted keyspace is the list of remaining entries
(RocksDB iterators read a consistent view taken at creation). The
`ReadOptions` chosen at creation are recorded for inspection. -/

/-- The `ReadOptions` fields the wrapper configures.
`ReadOptions::default()` leaves both false. -/
structure ReadOptions where
  prefix_same_as_start : Bool := false
  total_order_seek : Bool := false
deriving DecidableEq, Repr

/-- Read-option selection shared by `prefix_iterator` and
`snapshot_prefix_iterator`: prefix-indexed family with a prefix of at
least `PREFIX_LENGTH` bytes → same-prefix matching (bloom-accelerated);
shorter prefix → total-order seek; other families → defaults. -/
def prefixReadOpts (name : CFName) (pbytes : Bytes) : ReadOptions :=
  if name ∈ PREFIX_CFS then
    if PREFIX_LENGTH ≤ pbytes.length then
      { prefix_same_as_start := true, total_order_seek := false }
    else
      { total_order_seek := true }
  else {}

/-- Embeds `IteratorRef` (the `prefix` field is named `pfx`). `cursor` is
the source's `iterator: Mutex<Option<DBIteratorWithThreadMode>>`; `db` is
the `Arc<SharedDb>` that keeps the engine alive past `close`. -/
structure IteratorRef where
  cursor : Option KVList
  db : SharedDb
  pfx : Bytes
  cf_name : CFName
  readOpts : ReadOptions
deriving DecidableEq, Repr

inductive PrefIterResult where
  | okIter (it : IteratorRef)
  | err (r : Reply)
deriving DecidableEq, Repr

/-- Embeds `prefix_iterator`: cf validation, closed-check (cloning the
`Arc`), read-option configuration, and a forward cursor positioned at the
first key `≥ prefix`. -/
def prefix_iterator (h : Option SharedDb) (cf : String) (pbytes : Bytes) :
    PrefIterResult :=
  match cf_atom_to_name cf with
  | none => .err (.errInvalidCf cf)
  | some name =>
    match h with
    | none => .err .errAlreadyClosed
    | some d =>
      match cf_handle d name with
      | none => .err (.errInvalidCf cf)
      | some _ =>
        .okIter
          { cursor :=
              some ((getCF d.store name).dropWhile (fun e => ltB e.1 pbytes)),
            db := d, pfx := pbytes, cf_name := name,
            readOpts := prefixReadOpts name pbytes }

/-- Embeds `iterator_next`: advance the cursor; an entry that no longer
starts with the iterator's prefix is reported as end-of-stream (the entry
is still consumed, exactly as the source's `iterator.next()` already
advanced). -/
def iterator_next (it : IteratorRef) : Reply × IteratorRef :=
  match it.cursor with
  | none => (.errIteratorClosed, it)
  | some [] => (.iteratorEnd, it)
  | some (e :: rest) =>
    if starts_with e.1 it.pfx then
      (.okEntry e.1 e.2, { it with cursor := some rest })
    else
      (.iteratorEnd, { it with cursor := some rest })

/-- Embeds `iterator_seek`: builds a fresh engine cursor at the first key
`≥ target` (from the iterator's own `Arc<SharedDb>`) and swaps it in
wholesale. -/
def iterator_seek (it : IteratorRef) (target : Bytes) :
    Reply × IteratorRef :=
  match it.cursor with
  | none => (.errIteratorClosed, it)
  | some _ =>
    match cf_handle it.db it.cf_name with
    | none => (.errIteratorClosed, it)
    | some _ =>
      (.ok, { it with
        cursor :=
          some ((getCF it.db.store it.cf_name).dropWhile
            (fun e => ltB e.1 target)) })

/-- Embeds `iterator_close`: drops the cursor; a second close reports
`iterator_closed`. The `db` reference is retained by the resource. -/
def iterator_close (it : IteratorRef) : Reply × IteratorRef :=
  match it.cursor with
  | none => (.errIteratorClosed, it)
  | some _ => (.ok, { it with cursor := none })

/-- The drain loop of `iterator_collect`: keep consuming while entries
match the prefix; the first non-matching entry stops the loop (consumed). -/
def collectLoop (pbytes : Bytes) : KVList → List (Bytes × Bytes) × KVList
  | [] => ([], [])
  | e :: rest =>
    if starts_with e.1 pbytes then
      let res := collectLoop pbytes rest
      (e :: res.1, res.2)
    else ([], rest)

/-- Embeds `iterator_collect`. -/
def iterator_collect (it : IteratorRef) : Reply × IteratorRef :=
  match it.cursor with
  | none => (.errIteratorClosed, it)
  | some c =>
    let res := collectLoop it.pfx c
    (.okList res.1, { it with cursor := some res.2 })

theorem collectLoop_fst (pbytes : Bytes) (c : KVList) :
    (collectLoop pbytes c).1 = c.takeWhile (fun e => starts_with e.1 pbytes) := by
  induction c with
  | nil => rfl
  | cons e rest ih =>
    rw [List.takeWhile_cons]
    simp only [collectLoop]
    split
    next hsw => simp [ih]
    next hsw => simp

/-! ## Snapshots

`SnapshotRef` freezes the point-in-time view (the engine snapshot) and
holds its own `Arc<SharedDb>` for column-family resolution. -/

/-- Embeds `SnapshotRef`: `snap` is `Mutex<Option<SnapshotWithThreadMode>>`
(the frozen view of all column families), `db` the retained `Arc`. -/
structure SnapshotRef where
  snap : Option Store
  db : SharedDb
deriving DecidableEq, Repr

inductive SnapResult where
  | okSnap (sr : SnapshotRef)
  | err (r : Reply)
deriving DecidableEq, Repr

/-- Embeds `snapshot`: captures the store as of the call. -/
def snapshot (h : Option SharedDb) : SnapResult :=
  match h with
  | none => .err .errAlreadyClosed
  | some d => .okSnap { snap := some d.store, db := d }

/-- Embeds `snapshot_get`: cf validation, released-check, then a read
through the frozen view. -/
def snapshot_get (sr : SnapshotRef) (cf : String) (k : Bytes) : Reply :=
  match cf_atom_to_name cf with
  | none => .errInvalidCf cf
  | some name =>
    match sr.snap with
    | none => .errSnapshotReleased
    | some frozen =>
      match cf_handle sr.db name with
      | none => .errInvalidCf cf
      | some _ =>
        match lookupKV k (getCF frozen name) with
        | some v => .okVal v
        | none => .notFound

/-- Embeds `release_snapshot`. -/
def release_snapshot (sr : SnapshotRef) : Reply × SnapshotRef :=
  match sr.snap with
  | none => (.errSnapshotReleased, sr)
  | some _ => (.ok, { sr with snap := none })

/-- Embeds `SnapshotIteratorRef` (fields `_db` and `_cf_name` are `db` and
`cf_name`; `prefix` is `pfx`). -/
structure SnapshotIteratorRef where
  cursor : Option KVList
  db : SharedDb
  pfx : Bytes
  cf_name : CFName
  readOpts : ReadOptions
deriving DecidableEq, Repr

inductive SnapIterResult where
  | okIter (it : SnapshotIteratorRef)
  | err (r : Reply)
deriving DecidableEq, Repr

/-- Embeds `snapshot_prefix_iterator`: like `prefix_iterator` but reading
through the frozen view, with the same read-option selection. -/
def snapshot_prefix_iterator (sr : SnapshotRef) (cf : String)
    (pbytes : Bytes) : SnapIterResult :=
  match cf_atom_to_name cf with
  | none => .err (.errInvalidCf cf)
  | some name =>
    match sr.snap with
    | none => .err .errSnapshotReleased
    | some frozen =>
      match cf_handle sr.db name with
      | none => .err (.errInvalidCf cf)
      | some _ =>
        .okIter
          { cursor :=
              some ((getCF frozen name).dropWhile (fun e => ltB e.1 pbytes)),
            db := sr.db, pfx := pbytes, cf_name := name,
            readOpts := prefixReadOpts name pbytes }

/-- Embeds `snapshot_iterator_next` (same logic as `iterator_next`). -/
def snapshot_iterator_next (it : SnapshotIteratorRef) :
    Reply × SnapshotIteratorRef :=
  match it.cursor with
  | none => (.errIteratorClosed, it)
  | some [] => (.iteratorEnd, it)
  | some (e :: rest) =>
    if starts_with e.1 it.pfx then
      (.okEntry e.1 e.2, { it with cursor := some rest })
    else
      (.iteratorEnd, { it with cursor := some rest })

/-- Embeds `snapshot_iterator_close`. -/
def snapshot_iterator_close (it : SnapshotIteratorRef) :
    Reply × SnapshotIteratorRef :=
  match it.cursor with
  | none => (.errIteratorClosed, it)
  | some _ => (.ok, { it with cursor := none })

/-- Embeds `snapshot_iterator_collect`. -/
def snapshot_iterator_collect (it : SnapshotIteratorRef) :
    Reply × SnapshotIteratorRef :=
  match it.cursor with
  | none => (.errIteratorClosed, it)
  | some c =>
    let res := collectLoop it.pfx c
    (.okList res.1, { it with cursor := some res.2 })

/-! ## Resource world

To state lifecycle claims (close vs. live iterators) the registry and the
live dependent resources are gathered into one state. `close` only writes
the registry's own `RwLock`; every `Arc<SharedDb>` inside a live
iterator/snapshot resource is an independent holder of the engine. -/

structure World where
  registry : Option SharedDb
  iters : List IteratorRef
  snaps : List SnapshotRef
deriving DecidableEq, Repr

/-- `close` acting on the world: it touches only the registry reference. -/
def closeW (w : World) : Reply × World :=
  match w.registry with
  | none => (.errAlreadyClosed, w)
  | some _ => (.ok, { w with registry := none })

/-- The number of holders of the shared engine: the registry (if open)
plus every live iterator and snapshot resource (each holds an
`Arc<SharedDb>` for its whole resource lifetime). The engine is destroyed
exactly when this count reaches zero. -/
def refCount (w : World) : Nat :=
  (if w.registry.isSome then 1 else 0) + w.iters.length + w.snaps.length

/-- `iterator_next` on iterator `i` of the world. -/
def iterator_nextW (w : World) (i : Nat) : Reply × World :=
  match w.iters[i]? with
  | none => (.errIteratorClosed, w)
  | some it =>
    let res := iterator_next it
    (res.1, { w with iters := w.iters.set i res.2 })

/-- `iterator_close` on iterator `i` of the world. -/
def iterator_closeW (w : World) (i : Nat) : Reply × World :=
  match w.iters[i]? with
  | none => (.errIteratorClosed, w)
  | some it =>
    let res := iterator_close it
    (res.1, { w with iters := w.iters.set i res.2 })

/-- `iterator_collect` on iterator `i` of the world. -/
def iterator_collectW (w : World) (i : Nat) : Reply × World :=
  match w.iters[i]? with
  | none => (.errIteratorClosed, w)
  | some it =>
    let res := iterator_collect it
    (res.1, { w with iters := w.iters.set i res.2 })

/-- The stream of replies from `n` successive `iterator_next` calls. -/
def nextNW (w : World) (i : Nat) : Nat → List Reply
  | 0 => []
  | n + 1 =>
    let res := iterator_nextW w i
    res.1 :: nextNW res.2 i n

/-- Iteration never reads the registry: the reply stream is the same
whatever the registry reference is. -/
theorem nextNW_registry_irrel (n : Nat) :
    ∀ (r1 r2 : Option SharedDb) (its : List IteratorRef)
      (sn : List SnapshotRef) (i : Nat),
      nextNW ⟨r1, its, sn⟩ i n = nextNW ⟨r2, its, sn⟩ i n := by
  induction n with
  | zero => intro r1 r2 its sn i; rfl
  | succ m ih =>
    intro r1 r2 its sn i
    simp only [nextNW, iterator_nextW]
    cases its[i]? with
    | none => exact congrArg _ (ih r1 r2 its sn i)
    | some it => exact congrArg _ (ih r1 r2 (its.set i (iterator_next it).2) sn i)

/-! ## Building a store from a sequence of puts

Used to state insertion-order independence: the engine keyspace reached by
a sequence of point puts depends only on the key-value mapping, not on the
order of insertion (for distinct keys). -/

/-- Apply a list of puts to a keyspace, in order. -/
def putList (ops : List (Bytes × Bytes)) (l : KVList) : KVList :=
  ops.foldl (fun acc e => insertKV e.1 e.2 acc) l

theorem putList_sorted {ops : List (Bytes × Bytes)} {l : KVList}
    (h : sortedKV l = true) : sortedKV (putList ops l) = true := by
  induction ops generalizing l with
  | nil => exact h
  | cons e rest ih => exact ih (insertKV_sorted h)

theorem lookupKV_putList_none {ops : List (Bytes × Bytes)} {l : KVList}
    {k : Bytes} (h : lookupKV k ops = none) :
    lookupKV k (putList ops l) = lookupKV k l := by
  induction ops generalizing l with
  | nil => rfl
  | cons e rest ih =>
    simp only [lookupKV] at h
    split at h
    · cases h
    next hne =>
      simp only [putList, List.foldl_cons]
      rw [show (List.foldl (fun acc e => insertKV e.1 e.2 acc)
          (insertKV e.1 e.2 l) rest) = putList rest (insertKV e.1 e.2 l)
          from rfl]
      rw [ih h]
      exact lookupKV_insert_ne (fun he => hne he.symm)

theorem lookupKV_putList_some {ops : List (Bytes × Bytes)} {l : KVList}
    {k v : Bytes} (hnd : (ops.map Prod.fst).Nodup)
    (h : lookupKV k ops = some v) :
    lookupKV k (putList ops l) = some v := by
  induction ops generalizing l with
  | nil => cases h
  | cons e rest ih =>
    simp only [List.map_cons, List.nodup_cons] at hnd
    simp only [lookupKV] at h
    simp only [putList, List.foldl_cons]
    rw [show (List.foldl (fun acc e => insertKV e.1 e.2 acc)
        (insertKV e.1 e.2 l) rest) = putList rest (insertKV e.1 e.2 l)
        from rfl]
    split at h
    next hk =>
      -- the head is the binding; no later put touches this key
      have hnone : lookupKV k rest = none :=
        lookupKV_eq_none_of_forall (fun x hx he =>
          hnd.1 (by rw [hk, ← he]; exact List.mem_map_of_mem Prod.fst hx))
      rw [lookupKV_putList_none hnone, ← hk]
      rw [lookupKV_insert_self]
      exact h
    next hk =>
      exact ih hnd.2 h

theorem lookupKV_eq_some_of_mem {l : KVList} {k v : Bytes}
    (hnd : (l.map Prod.fst).Nodup) (hm : (k, v) ∈ l) :
    lookupKV k l = some v := by
  induction l with
  | nil => cases hm
  | cons e t ih =>
    simp only [List.map_cons, List.nodup_cons] at hnd
    rw [List.mem_cons] at hm
    rcases hm with hm | hm
    · rw [← hm]
      simp [lookupKV]
    · have hne : e.1 ≠ k := fun he =>
        hnd.1 (he ▸ List.mem_map_of_mem Prod.fst hm)
      simp only [lookupKV, if_neg hne]
      exact ih hnd.2 hm

theorem lookupKV_eq_none_iff {l : KVList} {k : Bytes} :
    lookupKV k l = none ↔ k ∉ l.map Prod.fst := by
  induction l with
  | nil => simp [lookupKV]
  | cons e t ih =>
    simp only [lookupKV, List.map_cons, List.mem_cons]
    split
    next he => simp [he]
    next he =>
      rw [ih]
      constructor
      · rintro hn (h | h)
        · exact he h.symm
        · exact hn h
      · intro hn h
        exact hn (Or.inr h)

/-- Two sorted keyspaces that answer every point read identically are the
same keyspace. -/
theorem sorted_lookup_ext {l1 l2 : KVList}
    (h1 : sortedKV l1 = true) (h2 : sortedKV l2 = true)
    (h : ∀ k, lookupKV k l1 = lookupKV k l2) : l1 = l2 := by
  induction l1 generalizing l2 with
  | nil =>
    cases l2 with
    | nil => rfl
    | cons b t2 =>
      have := h b.1
      simp [lookupKV] at this
  | cons a t1 ih =>
    cases l2 with
    | nil =>
      have := h a.1
      simp [lookupKV] at this
    | cons b t2 =>
      have hka : lookupKV a.1 (b :: t2) = some a.2 := by
        rw [← h a.1]; simp [lookupKV]
      have hkb : lookupKV b.1 (a :: t1) = some b.2 := by
        rw [h b.1]; simp [lookupKV]
      -- heads must carry the same key
      have hab : a.1 = b.1 := by
        by_contra hne
        have hbne : b.1 ≠ a.1 := fun he => hne he.symm
        have ha2 : lookupKV a.1 t2 = some a.2 := by
          simp only [lookupKV] at hka
          rw [if_neg hbne] at hka
          exact hka
        have hb1 : lookupKV b.1 t1 = some b.2 := by
          simp only [lookupKV] at hkb
          rw [if_neg hne] at hkb
          exact hkb
        have hma : a.1 ∈ t2.map Prod.fst := by
          by_contra hmem
          rw [← lookupKV_eq_none_iff] at hmem
          rw [hmem] at ha2
          cases ha2
        have hmb : b.1 ∈ t1.map Prod.fst := by
          by_contra hmem
          rw [← lookupKV_eq_none_iff] at hmem
          rw [hmem] at hb1
          cases hb1
        -- but then each head is strictly above the other
        rcases List.mem_map.mp hma with ⟨x, hx, hxk⟩
        rcases List.mem_map.mp hmb with ⟨y, hy, hyk⟩
        have h1' := sortedKV_head_lt h2 x hx
        have h2' := sortedKV_head_lt h1 y hy
        rw [hxk] at h1'
        rw [hyk] at h2'
        have := ltB_asymm h1'
        rw [h2'] at this
        cases this
      -- and the same value
      have hval : a.2 = b.2 := by
        have h' := hkb
        rw [← hab] at h'
        simp only [lookupKV, if_pos rfl] at h'
        exact Option.some.inj h'
      have hhead : a = b := by
        rcases a with ⟨ak, av⟩
        rcases b with ⟨bk, bv⟩
        simp only at hab hval
        rw [hab, hval]
      subst hhead
      -- tails agree on every lookup
      have htail : ∀ k, lookupKV k t1 = lookupKV k t2 := by
        intro k
        by_cases hk : a.1 = k
        · subst hk
          have hn1 : lookupKV a.1 t1 = none :=
            lookupKV_eq_none_of_forall (fun x hx he => by
              have := sortedKV_head_lt h1 x hx
              rw [he, ltB_irrefl] at this
              cases this)
          have hn2 : lookupKV a.1 t2 = none :=
            lookupKV_eq_none_of_forall (fun x hx he => by
              have := sortedKV_head_lt h2 x hx
              rw [he, ltB_irrefl] at this
              cases this)
          rw [hn1, hn2]
        · have := h k
          simpa [lookupKV, hk] using this
      exact congrArg _ (ih (sortedKV_tail h1) (sortedKV_tail h2) htail)

/-! ## Remaining helper lemmas -/

theorem lookupKV_some_mem {l : KVList} {k v : Bytes}
    (h : lookupKV k l = some v) : (k, v) ∈ l := by
  induction l with
  | nil => cases h
  | cons e t ih =>
    simp only [lookupKV] at h
    split at h
    next he =>
      rw [List.mem_cons]
      left
      rcases e with ⟨ek, ev⟩
      simp only at he
      cases h
      rw [he]
    next he => exact List.mem_cons_of_mem _ (ih h)

/-- Insertion-order independence: two sequences of puts that are
permutations of each other (distinct keys) build the same keyspace. -/
theorem putList_perm_eq {l1 l2 : List (Bytes × Bytes)} (hp : l1.Perm l2)
    (hnd : (l1.map Prod.fst).Nodup) : putList l1 [] = putList l2 [] := by
  have hnd2 : (l2.map Prod.fst).Nodup := ((hp.map Prod.fst).nodup_iff).mp hnd
  refine sorted_lookup_ext (putList_sorted rfl) (putList_sorted rfl) ?_
  intro k
  cases hc : lookupKV k l1 with
  | none =>
    have hc2 : lookupKV k l2 = none := by
      rw [lookupKV_eq_none_iff] at hc ⊢
      intro hm
      exact hc ((hp.map Prod.fst).mem_iff.mpr hm)
    rw [lookupKV_putList_none hc, lookupKV_putList_none hc2]
  | some v =>
    have hm2 : (k, v) ∈ l2 := hp.subset (lookupKV_some_mem hc)
    have hc2 : lookupKV k l2 = some v := lookupKV_eq_some_of_mem hnd2 hm2
    rw [lookupKV_putList_some hnd hc, lookupKV_putList_some hnd2 hc2]

/-- The stream of replies from `n` successive `iterator_next` calls on a
free-standing iterator resource. -/
def drainN (it : IteratorRef) : Nat → List Reply
  | 0 => []
  | n + 1 =>
    let res := iterator_next it
    res.1 :: drainN res.2 n

theorem drainN_spec (p : Bytes) (db : SharedDb) (cfn : CFName)
    (ro : ReadOptions) (c : KVList) :
    drainN ⟨some c, db, p, cfn, ro⟩
        ((c.takeWhile (fun e => starts_with e.1 p)).length + 1)
      = (c.takeWhile (fun e => starts_with e.1 p)).map
          (fun e => Reply.okEntry e.1 e.2) ++ [.iteratorEnd] := by
  induction c with
  | nil => rfl
  | cons e rest ih =>
    rw [List.takeWhile_cons]
    cases hsw : starts_with e.1 p
    · simp only [Bool.false_eq_true, if_false, List.length_nil, List.map_nil,
        List.nil_append]
      simp [drainN, iterator_next, hsw]
    · simp only [if_true, List.length_cons, List.map_cons, List.cons_append]
      simp only [drainN, iterator_next, hsw, if_pos]
      exact congrArg _ ih

/-- The batch parse loop reports the first malformed entry's error, after
any number of well-formed entries. -/
theorem parseEntries_first_error
    {f : Entry → Nif (Except Reply BatchOp)} {good rest : List Entry}
    {e : Entry} {r : Reply}
    (hgood : ∀ g ∈ good, ∃ op, f g = .ret (.ok op))
    (he : f e = .ret (.error r)) :
    parseEntries f (good ++ e :: rest) = .ret (.error r) := by
  induction good with
  | nil =>
    simp only [List.nil_append, parseEntries, he]
  | cons g tl ih =>
    rcases hgood g (by simp) with ⟨op, hop⟩
    simp only [List.cons_append, parseEntries, hop]
    have h' := ih (fun g' hg' => hgood g' (List.mem_cons_of_mem _ hg'))
    simp only [List.append_eq]
    rw [h']

/-! ## Claims -/

/-- C7: for every store opened by `open(path)`, `is_open` returns true for
every call before `close`, false after `close` completes, and a second
`close` on the same handle returns the already-closed error instead of
closing or destroying twice. -/
theorem C7_is_open_close_lifecycle :
    (∀ path : String, is_open (openDb path) = true) ∧
    (∀ d : SharedDb,
      is_open (some d) = true ∧
      close (some d) = (.ok, none) ∧
      is_open (close (some d)).2 = false ∧
      close ((close (some d)).2) = (.errAlreadyClosed, none)) := by
  exact ⟨fun _ => rfl, fun _ => ⟨rfl, rfl, rfl, rfl⟩⟩

/-- C8: on an open handle with a valid column family, a put of `v`
followed by a get on the same key and family returns `v`, and a delete
followed by a get on the same key and family returns the not-found
marker. -/
theorem C8_put_get_delete_get (d : SharedDb) (cf : String) (name : CFName)
    (k v : Bytes) (hcf : cf_atom_to_name cf = some name)
    (hs : sortedKV (getCF d.store name) = true) :
    (put (some d) cf k v).1 = .ok ∧
    get (put (some d) cf k v).2 cf k = .okVal v ∧
    (delete (some d) cf k).1 = .ok ∧
    get (delete (some d) cf k).2 cf k = .notFound := by
  refine ⟨?_, ?_, ?_, ?_⟩
  · simp [put, hcf, cf_handle]
  · simp [put, get, hcf, cf_handle, getCF_setCF_self, lookupKV_insert_self]
  · simp [delete, hcf, cf_handle]
  · simp [delete, get, hcf, cf_handle, getCF_setCF_self,
      lookupKV_delete_self hs]

theorem C8_put_get_delete_get_witness :
    (put (some ⟨emptyStore, "p"⟩) "spo" [1] [2]).1 = .ok ∧
    get (put (some ⟨emptyStore, "p"⟩) "spo" [1] [2]).2 "spo" [1]
      = .okVal [2] ∧
    (delete (some ⟨emptyStore, "p"⟩) "spo" [1]).1 = .ok ∧
    get (delete (some ⟨emptyStore, "p"⟩) "spo" [1]).2 "spo" [1]
      = .notFound :=
  C8_put_get_delete_get ⟨emptyStore, "p"⟩ "spo" .spo [1] [2]
    (by decide) (by decide)

/-- C10: for every handle (open or closed) and every atom outside the
seven valid column-family names, `get`, `put`, `delete`, `exists` and
`prefix_iterator` return the invalid-column-family error carrying the
offending atom — even on a closed handle, because the family is validated
before the open/closed check. -/
theorem C10_invalid_cf_checked_first (h : Option SharedDb) (a : String)
    (k v pbytes : Bytes) (hcf : cf_atom_to_name a = none) :
    get h a k = .errInvalidCf a ∧
    put h a k v = (.errInvalidCf a, h) ∧
    delete h a k = (.errInvalidCf a, h) ∧
    existsKey h a k = .errInvalidCf a ∧
    prefix_iterator h a pbytes = .err (.errInvalidCf a) := by
  refine ⟨?_, ?_, ?_, ?_, ?_⟩ <;>
    simp [get, put, delete, existsKey, prefix_iterator, hcf]

theorem C10_invalid_cf_checked_first_witness :
    get none "bogus" [1] = .errInvalidCf "bogus" ∧
    put none "bogus" [1] [2] = (.errInvalidCf "bogus", none) ∧
    delete none "bogus" [1] = (.errInvalidCf "bogus", none) ∧
    existsKey none "bogus" [1] = .errInvalidCf "bogus" ∧
    prefix_iterator none "bogus" [1] = .err (.errInvalidCf "bogus") :=
  C10_invalid_cf_checked_first none "bogus" [1] [2] [1] (by decide)

/-- C4: once a handle's close has completed (registry reference `none`),
every new data operation — `get`, `put`, `delete`, `exists`, the three
batch variants, `prefix_iterator`, `snapshot`, `flush_wal`, `set_options`
— returns the already-closed error and leaves the store untouched (the
operations with a column-family argument assume a valid family; an invalid
one reports invalid-column-family instead, see the C10 theorem). -/
theorem C4_closed_handle_rejects_operations (cf : String) (name : CFName)
    (k v pbytes : Bytes) (ops : List Entry) (sync : Bool)
    (options : List (String × String))
    (hcf : cf_atom_to_name cf = some name) :
    get none cf k = .errAlreadyClosed ∧
    put none cf k v = (.errAlreadyClosed, none) ∧
    delete none cf k = (.errAlreadyClosed, none) ∧
    existsKey none cf k = .errAlreadyClosed ∧
    write_batch none ops sync = .ret (.errAlreadyClosed, none) ∧
    delete_batch none ops sync = .ret (.errAlreadyClosed, none) ∧
    mixed_batch none ops sync = .ret (.errAlreadyClosed, none) ∧
    prefix_iterator none cf pbytes = .err .errAlreadyClosed ∧
    snapshot none = .err .errAlreadyClosed ∧
    flush_wal none sync = .errAlreadyClosed ∧
    set_options none options = .errAlreadyClosed := by
  refine ⟨?_, ?_, ?_, ?_, rfl, rfl, rfl, ?_, rfl, rfl, rfl⟩ <;>
    simp [get, put, delete, existsKey, prefix_iterator, hcf]

theorem C4_closed_handle_rejects_operations_witness :
    get none "spo" [1] = .errAlreadyClosed ∧
    put none "spo" [1] [2] = (.errAlreadyClosed, none) ∧
    delete none "spo" [1] = (.errAlreadyClosed, none) ∧
    existsKey none "spo" [1] = .errAlreadyClosed ∧
    write_batch none [] false = .ret (.errAlreadyClosed, none) ∧
    delete_batch none [] false = .ret (.errAlreadyClosed, none) ∧
    mixed_batch none [] false = .ret (.errAlreadyClosed, none) ∧
    prefix_iterator none "spo" [1] = .err .errAlreadyClosed ∧
    snapshot none = .err .errAlreadyClosed ∧
    flush_wal none false = .errAlreadyClosed ∧
    set_options none [] = .errAlreadyClosed :=
  C4_closed_handle_rejects_operations "spo" .spo [1] [2] [1] [] false []
    (by decide)

/-- C9: both `prefix_iterator` and `snapshot_prefix_iterator` configure
the scan from the family and prefix length: on a prefix-indexed family
(`spo`, `pos`, `osp`, `numeric_range`) a prefix of at least 8 bytes turns
on same-prefix matching with bloom-filter seeking
(`prefix_same_as_start = true`, `total_order_seek = false`); a shorter
prefix turns on the full total-order seek; any other family gets neither
setting. -/
theorem C9_read_option_selection (d : SharedDb) (cf : String)
    (name : CFName) (pbytes : Bytes) (sr : SnapshotRef) (frozen : Store)
    (hcf : cf_atom_to_name cf = some name) (hsnap : sr.snap = some frozen) :
    (∃ it : IteratorRef, prefix_iterator (some d) cf pbytes = .okIter it ∧
      it.readOpts = prefixReadOpts name pbytes) ∧
    (∃ it : SnapshotIteratorRef,
      snapshot_prefix_iterator sr cf pbytes = .okIter it ∧
      it.readOpts = prefixReadOpts name pbytes) ∧
    (name ∈ PREFIX_CFS → PREFIX_LENGTH ≤ pbytes.length →
      prefixReadOpts name pbytes
        = { prefix_same_as_start := true, total_order_seek := false }) ∧
    (name ∈ PREFIX_CFS → pbytes.length < PREFIX_LENGTH →
      prefixReadOpts name pbytes
        = { prefix_same_as_start := false, total_order_seek := true }) ∧
    (name ∉ PREFIX_CFS →
      prefixReadOpts name pbytes
        = { prefix_same_as_start := false, total_order_seek := false }) := by
  refine ⟨?_, ?_, ?_, ?_, ?_⟩
  · simp only [prefix_iterator, hcf, cf_handle]
    exact ⟨_, rfl, rfl⟩
  · simp only [snapshot_prefix_iterator, hcf, hsnap, cf_handle]
    exact ⟨_, rfl, rfl⟩
  · intro hm hlen
    simp [prefixReadOpts, hm, hlen]
  · intro hm hlen
    simp [prefixReadOpts, hm, Nat.not_le.mpr hlen]
  · intro hm
    simp [prefixReadOpts, hm]

theorem C9_read_option_selection_witness :
    (∃ it : IteratorRef,
      prefix_iterator (some ⟨emptyStore, "p"⟩) "spo" [1] = .okIter it ∧
      it.readOpts = prefixReadOpts .spo [1]) ∧
    (∃ it : SnapshotIteratorRef,
      snapshot_prefix_iterator ⟨some emptyStore, ⟨emptyStore, "p"⟩⟩ "spo" [1]
        = .okIter it ∧
      it.readOpts = prefixReadOpts .spo [1]) ∧
    (CFName.spo ∈ PREFIX_CFS → PREFIX_LENGTH ≤ ([1] : Bytes).length →
      prefixReadOpts .spo [1]
        = { prefix_same_as_start := true, total_order_seek := false }) ∧
    (CFName.spo ∈ PREFIX_CFS → ([1] : Bytes).length < PREFIX_LENGTH →
      prefixReadOpts .spo [1]
        = { prefix_same_as_start := false, total_order_seek := true }) ∧
    (CFName.spo ∉ PREFIX_CFS →
      prefixReadOpts .spo [1]
        = { prefix_same_as_start := false, total_order_seek := false }) :=
  C9_read_option_selection ⟨emptyStore, "p"⟩ "spo" .spo [1]
    ⟨some emptyStore, ⟨emptyStore, "p"⟩⟩ emptyStore (by decide) rfl

/-- C3: a snapshot freezes the store at creation; subsequent live writes —
overwriting a key that existed at snapshot time with a new value, or
inserting a fresh key — are invisible through `snapshot_get`: the
overwritten key still reads its pre-snapshot value and the fresh key reads
not-found, even while live `get` sees both writes. -/
theorem C3_snapshot_invisible_writes (d : SharedDb) (cf : String)
    (name : CFName) (k1 v1 v2 k2 v3 : Bytes) (sr : SnapshotRef)
    (hcf : cf_atom_to_name cf = some name)
    (h1 : lookupKV k1 (getCF d.store name) = some v1)
    (h2 : lookupKV k2 (getCF d.store name) = none)
    (hsnap : snapshot (some d) = .okSnap sr) :
    (put (some d) cf k1 v2).1 = .ok ∧
    (put (put (some d) cf k1 v2).2 cf k2 v3).1 = .ok ∧
    get (put (put (some d) cf k1 v2).2 cf k2 v3).2 cf k1 = .okVal v2 ∧
    get (put (put (some d) cf k1 v2).2 cf k2 v3).2 cf k2 = .okVal v3 ∧
    snapshot_get sr cf k1 = .okVal v1 ∧
    snapshot_get sr cf k2 = .notFound := by
  have hne : k1 ≠ k2 := by
    intro he
    rw [he, h2] at h1
    cases h1
  have hsr : sr = { snap := some d.store, db := d } := by
    simp only [snapshot] at hsnap
    cases hsnap
    rfl
  subst hsr
  refine ⟨?_, ?_, ?_, ?_, ?_, ?_⟩
  · simp [put, hcf, cf_handle]
  · simp [put, hcf, cf_handle]
  · simp [put, get, hcf, cf_handle, getCF_setCF_self,
      lookupKV_insert_ne hne, lookupKV_insert_self]
  · simp [put, get, hcf, cf_handle, getCF_setCF_self, lookupKV_insert_self]
  · simp [snapshot_get, hcf, cf_handle, h1]
  · simp [snapshot_get, hcf, cf_handle, h2]

theorem C3_snapshot_invisible_writes_witness :
    (put (some ⟨setCF emptyStore .spo [([1], [7])], "p"⟩) "spo" [1] [8]).1
      = .ok ∧
    (put (put (some ⟨setCF emptyStore .spo [([1], [7])], "p"⟩) "spo" [1]
        [8]).2 "spo" [2] [9]).1 = .ok ∧
    get (put (put (some ⟨setCF emptyStore .spo [([1], [7])], "p"⟩) "spo" [1]
        [8]).2 "spo" [2] [9]).2 "spo" [1] = .okVal [8] ∧
    get (put (put (some ⟨setCF emptyStore .spo [([1], [7])], "p"⟩) "spo" [1]
        [8]).2 "spo" [2] [9]).2 "spo" [2] = .okVal [9] ∧
    snapshot_get ⟨some (setCF emptyStore .spo [([1], [7])]),
        ⟨setCF emptyStore .spo [([1], [7])], "p"⟩⟩ "spo" [1] = .okVal [7] ∧
    snapshot_get ⟨some (setCF emptyStore .spo [([1], [7])]),
        ⟨setCF emptyStore .spo [([1], [7])], "p"⟩⟩ "spo" [2] = .notFound :=
  C3_snapshot_invisible_writes ⟨setCF emptyStore .spo [([1], [7])], "p"⟩
    "spo" .spo [1] [7] [8] [2] [9]
    ⟨some (setCF emptyStore .spo [([1], [7])]),
      ⟨setCF emptyStore .spo [([1], [7])], "p"⟩⟩
    (by decide) (by decide) (by decide) (by decide)

/-- C2 counterexample: two different malformed `mixed_batch` entries —
`{:put, :spo, key}` (put with arity 3) and `{:delete, :spo, key, value}`
(delete with arity 4) — produce the identical bare `:invalid_operation`
error, which therefore identifies neither the bad entry nor why it is bad:
the claim's "the error is descriptive, identifying the bad entry and why
it is bad" fails for wrong-arity entries. -/
theorem C2_counterexample_bare_arity_error :
    mixed_batch (some ⟨emptyStore, "p"⟩)
        [[ETerm.atom "put", ETerm.atom "spo", ETerm.bin [1]]] false
      = .ret (.errInvalidOp, some ⟨emptyStore, "p"⟩) ∧
    mixed_batch (some ⟨emptyStore, "p"⟩)
        [[ETerm.atom "delete", ETerm.atom "spo", ETerm.bin [1],
          ETerm.bin [2]]] false
      = .ret (.errInvalidOp, some ⟨emptyStore, "p"⟩) ∧
    ([ETerm.atom "put", ETerm.atom "spo", ETerm.bin [1]] : Entry)
      ≠ [ETerm.atom "delete", ETerm.atom "spo", ETerm.bin [1],
          ETerm.bin [2]] := by
  refine ⟨by decide, by decide, by decide⟩

/-- C2 (amended): a batch call whose list contains a malformed entry
(wrong tuple arity, unknown operation tag, unknown column family) returns
an error before any write is issued and leaves the store unchanged; the
unknown-tag and unknown-family errors carry the offending atom, but a
wrong-arity entry yields a bare `invalid_operation` marker that does not
identify the entry. -/
theorem C2_batch_malformed_aborts_amended :
    (∀ (d : SharedDb) (ops : List Entry) (sync : Bool) (r : Reply)
        (h2 : Option SharedDb),
      (write_batch (some d) ops sync = .ret (r, h2) → r ≠ .ok →
        h2 = some d) ∧
      (delete_batch (some d) ops sync = .ret (r, h2) → r ≠ .ok →
        h2 = some d) ∧
      (mixed_batch (some d) ops sync = .ret (r, h2) → r ≠ .ok →
        h2 = some d)) ∧
    (∀ (d : SharedDb) (good rest : List Entry) (e : Entry) (sync : Bool)
        (r : Reply),
      (∀ g ∈ good, ∃ op, parseMixedEntry d g = .ret (.ok op)) →
      parseMixedEntry d e = .ret (.error r) →
      mixed_batch (some d) (good ++ e :: rest) sync = .ret (r, some d)) ∧
    (∀ (d : SharedDb) (good rest : List Entry) (e : Entry) (sync : Bool)
        (r : Reply),
      (∀ g ∈ good, ∃ op, parseWriteEntry d g = .ret (.ok op)) →
      parseWriteEntry d e = .ret (.error r) →
      write_batch (some d) (good ++ e :: rest) sync = .ret (r, some d)) ∧
    (∀ (d : SharedDb) (good rest : List Entry) (e : Entry) (sync : Bool)
        (r : Reply),
      (∀ g ∈ good, ∃ op, parseDeleteEntry d g = .ret (.ok op)) →
      parseDeleteEntry d e = .ret (.error r) →
      delete_batch (some d) (good ++ e :: rest) sync = .ret (r, some d)) ∧
    (∀ (d : SharedDb) (t0 : ETerm) (ts : List ETerm) (a : String),
      decodeAtom t0 = some a → a ≠ "put" → a ≠ "delete" →
      parseMixedEntry d (t0 :: ts)
        = .ret (.error (.errInvalidOpTag a))) ∧
    (∀ (d : SharedDb) (ts : List ETerm), ts.length ≠ 3 →
      parseMixedEntry d (ETerm.atom "put" :: ts)
        = .ret (.error .errInvalidOp)) ∧
    (∀ (d : SharedDb) (ts : List ETerm), ts.length ≠ 2 →
      parseMixedEntry d (ETerm.atom "delete" :: ts)
        = .ret (.error .errInvalidOp)) ∧
    (∀ (d : SharedDb) (cfa : String) (k v : Bytes),
      cf_atom_to_name cfa = none →
      parseMixedEntry d
          [ETerm.atom "put", ETerm.atom cfa, ETerm.bin k, ETerm.bin v]
        = .ret (.error (.errInvalidCf cfa))) ∧
    (∀ (d : SharedDb) (cfa : String) (k : Bytes),
      cf_atom_to_name cfa = none →
      parseMixedEntry d [ETerm.atom "delete", ETerm.atom cfa, ETerm.bin k]
        = .ret (.error (.errInvalidCf cfa))) ∧
    (∀ (d : SharedDb) (e : Entry), e.length ≠ 3 → e.length ≠ 4 →
      parseWriteEntry d e = .ret (.error .errInvalidOp)) ∧
    (∀ (d : SharedDb) (a cfa : String) (k v : Bytes), a ≠ "put" →
      parseWriteEntry d
          [ETerm.atom a, ETerm.atom cfa, ETerm.bin k, ETerm.bin v]
        = .ret (.error (.errInvalidOpTag a))) ∧
    (∀ (d : SharedDb) (cfa : String) (k v : Bytes),
      cf_atom_to_name cfa = none →
      parseWriteEntry d [ETerm.atom cfa, ETerm.bin k, ETerm.bin v]
        = .ret (.error (.errInvalidCf cfa))) ∧
    (∀ (d : SharedDb) (e : Entry), e.length ≠ 2 →
      parseDeleteEntry d e = .ret (.error .errInvalidOp)) ∧
    (∀ (d : SharedDb) (cfa : String) (k : Bytes),
      cf_atom_to_name cfa = none →
      parseDeleteEntry d [ETerm.atom cfa, ETerm.bin k]
        = .ret (.error (.errInvalidCf cfa))) := by
  refine ⟨?_, ?_, ?_, ?_, ?_, ?_, ?_, ?_, ?_, ?_, ?_, ?_, ?_, ?_⟩
  · intro d ops sync r h2
    refine ⟨?_, ?_, ?_⟩
    · intro heq hr
      cases hpe : parseEntries (parseWriteEntry d) ops with
      | raised m =>
        simp only [write_batch, hpe] at heq
        cases heq
      | ret x =>
        cases x with
        | error rr =>
          simp only [write_batch, hpe, Nif.ret.injEq, Prod.mk.injEq] at heq
          exact heq.2.symm
        | ok bops =>
          simp only [write_batch, hpe, Nif.ret.injEq, Prod.mk.injEq] at heq
          exact absurd heq.1.symm hr
    · intro heq hr
      cases hpe : parseEntries (parseDeleteEntry d) ops with
      | raised m =>
        simp only [delete_batch, hpe] at heq
        cases heq
      | ret x =>
        cases x with
        | error rr =>
          simp only [delete_batch, hpe, Nif.ret.injEq, Prod.mk.injEq] at heq
          exact heq.2.symm
        | ok bops =>
          simp only [delete_batch, hpe, Nif.ret.injEq, Prod.mk.injEq] at heq
          exact absurd heq.1.symm hr
    · intro heq hr
      cases hpe : parseEntries (parseMixedEntry d) ops with
      | raised m =>
        simp only [mixed_batch, hpe] at heq
        cases heq
      | ret x =>
        cases x with
        | error rr =>
          simp only [mixed_batch, hpe, Nif.ret.injEq, Prod.mk.injEq] at heq
          exact heq.2.symm
        | ok bops =>
          simp only [mixed_batch, hpe, Nif.ret.injEq, Prod.mk.injEq] at heq
          exact absurd heq.1.symm hr
  · intro d good rest e sync r hgood he
    simp only [mixed_batch, parseEntries_first_error hgood he]
  · intro d good rest e sync r hgood he
    simp only [write_batch, parseEntries_first_error hgood he]
  · intro d good rest e sync r hgood he
    simp only [delete_batch, parseEntries_first_error hgood he]
  · intro d t0 ts a h0 hput hdel
    cases t0 with
    | bin b => cases h0
    | atom a' =>
      cases h0
      simp [parseMixedEntry, decodeAtom, hput, hdel]
  · intro d ts hlen
    rcases ts with _ | ⟨t1, _ | ⟨t2, _ | ⟨t3, _ | ⟨t4, ts'⟩⟩⟩⟩
    · rfl
    · rfl
    · rfl
    · exact absurd rfl hlen
    · rfl
  · intro d ts hlen
    rcases ts with _ | ⟨t1, _ | ⟨t2, _ | ⟨t3, ts'⟩⟩⟩
    · rfl
    · rfl
    · exact absurd rfl hlen
    · rfl
  · intro d cfa k v hcfa
    simp [parseMixedEntry, decodeAtom, decodeBin, hcfa]
  · intro d cfa k hcfa
    simp [parseMixedEntry, decodeAtom, decodeBin, hcfa]
  · intro d e h3 h4
    rcases e with _ | ⟨t1, _ | ⟨t2, _ | ⟨t3, _ | ⟨t4, _ | ⟨t5, ts'⟩⟩⟩⟩⟩
    · rfl
    · rfl
    · rfl
    · exact absurd rfl h3
    · exact absurd rfl h4
    · rfl
  · intro d a cfa k v ha
    simp [parseWriteEntry, decodeAtom, decodeBin, ha]
  · intro d cfa k v hcfa
    simp [parseWriteEntry, decodeAtom, decodeBin, hcfa]
  · intro d e h2
    rcases e with _ | ⟨t1, _ | ⟨t2, _ | ⟨t3, ts'⟩⟩⟩
    · rfl
    · rfl
    · exact absurd rfl h2
    · rfl
  · intro d cfa k hcfa
    simp [parseDeleteEntry, decodeAtom, decodeBin, hcfa]

theorem C2_batch_malformed_aborts_amended_witness :
    (some (⟨emptyStore, "p"⟩ : SharedDb) : Option SharedDb)
      = some ⟨emptyStore, "p"⟩ :=
  ((C2_batch_malformed_aborts_amended.1 ⟨emptyStore, "p"⟩
      [[ETerm.atom "put", ETerm.atom "spo", ETerm.bin [1]]] false
      .errInvalidOp (some ⟨emptyStore, "p"⟩)).2.2)
    (by decide) (by decide)

/-- C5: on an open iterator, `iterator_seek(target)` then `iterator_next`
returns the first key `≥ target` when that key still starts with the
iterator's original prefix (and that entry is exactly the first key
`≥ target` matching the prefix); when the first key `≥ target` does not
start with the prefix — or no key is `≥ target` — the next call reports
end-of-stream. -/
theorem C5_seek_then_next (d : SharedDb) (cf : String) (name : CFName)
    (pbytes target : Bytes) (it : IteratorRef)
    (hcf : cf_atom_to_name cf = some name)
    (hs : sortedKV (getCF d.store name) = true)
    (hiter : prefix_iterator (some d) cf pbytes = .okIter it) :
    (iterator_seek it target).1 = .ok ∧
    (∀ e tl,
      (getCF d.store name).filter (fun x => !ltB x.1 target) = e :: tl →
      (starts_with e.1 pbytes = true →
        (iterator_next (iterator_seek it target).2).1
          = .okEntry e.1 e.2 ∧
        ((getCF d.store name).filter
            (fun x => starts_with x.1 pbytes && !ltB x.1 target)).head?
          = some e) ∧
      (starts_with e.1 pbytes = false →
        (iterator_next (iterator_seek it target).2).1 = .iteratorEnd)) ∧
    ((getCF d.store name).filter (fun x => !ltB x.1 target) = [] →
      (iterator_next (iterator_seek it target).2).1 = .iteratorEnd) := by
  simp only [prefix_iterator, hcf, cf_handle] at hiter
  have hit : it = ⟨some ((getCF d.store name).dropWhile
      (fun e => ltB e.1 pbytes)), d, pbytes, name,
      prefixReadOpts name pbytes⟩ := by
    cases hiter
    rfl
  subst hit
  have hseek : iterator_seek (⟨some ((getCF d.store name).dropWhile
      (fun e => ltB e.1 pbytes)), d, pbytes, name,
      prefixReadOpts name pbytes⟩ : IteratorRef) target
      = (.ok, ⟨some ((getCF d.store name).filter
          (fun x => !ltB x.1 target)), d, pbytes, name,
          prefixReadOpts name pbytes⟩) := by
    simp only [iterator_seek, cf_handle]
    rw [dropWhile_eq_filter_ge hs]
  rw [hseek]
  refine ⟨rfl, ?_, ?_⟩
  · intro e tl hfl
    constructor
    · intro hsw
      rw [hfl]
      constructor
      · simp [iterator_next, hsw]
      · rw [← List.filter_filter, hfl, List.filter_cons, hsw]
        simp
    · intro hsw
      rw [hfl]
      simp [iterator_next, hsw]
  · intro hfl
    rw [hfl]
    simp [iterator_next]

theorem C5_seek_then_next_witness :
    (iterator_seek (⟨some [([1, 2], [9])],
        ⟨setCF emptyStore .spo [([1, 2], [9])], "p"⟩, [1], .spo,
        prefixReadOpts .spo [1]⟩ : IteratorRef) [1]).1 = .ok :=
  (C5_seek_then_next ⟨setCF emptyStore .spo [([1, 2], [9])], "p"⟩ "spo" .spo
    [1] [1]
    ⟨some [([1, 2], [9])], ⟨setCF emptyStore .spo [([1, 2], [9])], "p"⟩,
      [1], .spo, prefixReadOpts .spo [1]⟩
    (by decide) (by decide) (by decide)).1

/-- C6: draining a prefix iterator — in one `iterator_collect` call or by
repeated `iterator_next` — returns exactly the stored entries whose keys
start with the prefix, in ascending key order (the wrapper checks the
prefix on every entry and treats the first non-matching key as
end-of-stream), and the store reached by a sequence of puts is independent
of their insertion order (for distinct keys). -/
theorem C6_drain_is_sorted_prefix_filter (d : SharedDb) (cf : String)
    (name : CFName) (pbytes : Bytes) (it : IteratorRef)
    (hcf : cf_atom_to_name cf = some name)
    (hs : sortedKV (getCF d.store name) = true)
    (hiter : prefix_iterator (some d) cf pbytes = .okIter it) :
    (iterator_collect it).1
      = .okList ((getCF d.store name).filter
          (fun e => starts_with e.1 pbytes)) ∧
    sortedKV ((getCF d.store name).filter
        (fun e => starts_with e.1 pbytes)) = true ∧
    drainN it
        (((getCF d.store name).filter
          (fun e => starts_with e.1 pbytes)).length + 1)
      = ((getCF d.store name).filter (fun e => starts_with e.1 pbytes)).map
          (fun e => Reply.okEntry e.1 e.2) ++ [.iteratorEnd] ∧
    (∀ l1 l2 : List (Bytes × Bytes), l1.Perm l2 →
      (l1.map Prod.fst).Nodup → putList l1 [] = putList l2 []) := by
  simp only [prefix_iterator, hcf, cf_handle] at hiter
  have hit : it = ⟨some ((getCF d.store name).dropWhile
      (fun e => ltB e.1 pbytes)), d, pbytes, name,
      prefixReadOpts name pbytes⟩ := by
    cases hiter
    rfl
  subst hit
  refine ⟨?_, filter_sorted hs _, ?_, fun l1 l2 hp hnd => putList_perm_eq hp hnd⟩
  · simp only [iterator_collect, collectLoop_fst]
    rw [scan_eq_filter hs]
  · have hdr := drainN_spec pbytes d name (prefixReadOpts name pbytes)
      ((getCF d.store name).dropWhile (fun e => ltB e.1 pbytes))
    rw [scan_eq_filter hs] at hdr
    exact hdr

theorem C6_drain_is_sorted_prefix_filter_witness :
    (iterator_collect ⟨some [([97, 97, 97, 49], [1]), ([97, 97, 97, 50], [2]),
        ([98, 98, 98, 49], [3])],
      ⟨setCF emptyStore .spo [([97, 97, 97, 49], [1]), ([97, 97, 97, 50], [2]),
        ([98, 98, 98, 49], [3])], "p"⟩,
      [97, 97, 97], .spo, prefixReadOpts .spo [97, 97, 97]⟩).1
      = .okList [([97, 97, 97, 49], [1]), ([97, 97, 97, 50], [2])] := by
  have h := (C6_drain_is_sorted_prefix_filter
    ⟨setCF emptyStore .spo [([97, 97, 97, 49], [1]), ([97, 97, 97, 50], [2]),
      ([98, 98, 98, 49], [3])], "p"⟩ "spo" .spo [97, 97, 97]
    ⟨some [([97, 97, 97, 49], [1]), ([97, 97, 97, 50], [2]),
        ([98, 98, 98, 49], [3])],
      ⟨setCF emptyStore .spo [([97, 97, 97, 49], [1]), ([97, 97, 97, 50], [2]),
        ([98, 98, 98, 49], [3])], "p"⟩,
      [97, 97, 97], .spo, prefixReadOpts .spo [97, 97, 97]⟩
    (by decide) (by decide) (by decide)).1
  rw [h]
  decide

/-- C1: closing the handle while an iterator created from it is open gives
already: `close` succeeds touching only the registry reference; every
iterator resource is untouched; the shared engine still has a holder (it
is destroyed only when the last holder — registry, iterator, or snapshot —
releases its reference); the reply stream of `iterator_next` is identical
to the stream without the close, and draining yields exactly the store's
prefix-matching entries — until the iterator is explicitly closed, after
which `iterator_next` reports the iterator-closed error. -/
theorem C1_close_leaves_iterator_correct (w : World) (i : Nat)
    (d : SharedDb) (cf : String) (name : CFName) (pbytes : Bytes)
    (it : IteratorRef)
    (hreg : w.registry = some d)
    (hcf : cf_atom_to_name cf = some name)
    (hs : sortedKV (getCF d.store name) = true)
    (hiter : prefix_iterator (some d) cf pbytes = .okIter it)
    (hin : w.iters[i]? = some it) :
    (closeW w).1 = .ok ∧
    (closeW w).2.iters = w.iters ∧
    0 < refCount (closeW w).2 ∧
    (∀ n, nextNW (closeW w).2 i n = nextNW w i n) ∧
    (iterator_collectW (closeW w).2 i).1
      = .okList ((getCF d.store name).filter
          (fun e => starts_with e.1 pbytes)) ∧
    (iterator_closeW (closeW w).2 i).1 = .ok ∧
    (iterator_nextW (iterator_closeW (closeW w).2 i).2 i).1
      = .errIteratorClosed := by
  simp only [prefix_iterator, hcf, cf_handle] at hiter
  have hit : it = ⟨some ((getCF d.store name).dropWhile
      (fun e => ltB e.1 pbytes)), d, pbytes, name,
      prefixReadOpts name pbytes⟩ := by
    cases hiter
    rfl
  rcases w with ⟨reg, its, sn⟩
  simp only at hreg hin
  subst hreg
  have hclose : closeW ⟨some d, its, sn⟩ = (.ok, ⟨none, its, sn⟩) := rfl
  rw [hclose]
  have hlen : i < its.length := by
    cases hlt : Nat.decLt i its.length with
    | isTrue h => exact h
    | isFalse h =>
      rw [List.getElem?_eq_none (Nat.le_of_not_lt h)] at hin
      cases hin
  refine ⟨rfl, rfl, ?_, ?_, ?_, ?_⟩
  · simp only [refCount]
    omega
  · intro n
    exact nextNW_registry_irrel n none (some d) its sn i
  · simp only [iterator_collectW, hin]
    rw [hit]
    simp only [iterator_collect, collectLoop_fst]
    rw [scan_eq_filter hs]
  · constructor
    · simp only [iterator_closeW, hin]
      rw [hit]
      rfl
    · simp only [iterator_closeW, hin]
      rw [hit]
      simp only [iterator_close]
      simp only [iterator_nextW, List.getElem?_set_self hlen]
      rfl

theorem C1_close_leaves_iterator_correct_witness :
    (closeW ⟨some ⟨setCF emptyStore .spo [([1, 2], [9])], "p"⟩,
        [⟨some [([1, 2], [9])],
          ⟨setCF emptyStore .spo [([1, 2], [9])], "p"⟩, [1], .spo,
          prefixReadOpts .spo [1]⟩], []⟩).1 = .ok :=
  (C1_close_leaves_iterator_correct
    ⟨some ⟨setCF emptyStore .spo [([1, 2], [9])], "p"⟩,
      [⟨some [([1, 2], [9])],
        ⟨setCF emptyStore .spo [([1, 2], [9])], "p"⟩, [1], .spo,
        prefixReadOpts .spo [1]⟩], []⟩ 0
    ⟨setCF emptyStore .spo [([1, 2], [9])], "p"⟩ "spo" .spo [1]
    ⟨some [([1, 2], [9])], ⟨setCF emptyStore .spo [([1, 2], [9])], "p"⟩,
      [1], .spo, prefixReadOpts .spo [1]⟩
    (by decide) (by decide) (by decide) (by decide) (by decide)).1

end TripleStore
